import Mathlib

/-!
# LiczbaPi: partitioned left-Riemann approximation of pi

A shallow embedding of `LiczbaPi/LiczbaPi.cpp`, given twice.

**Exact arithmetic.**  Every `double` is an exact rational (a value of `ℚ`);
statements that compare the output with `π` cast it into `ℝ`.

* `loop` is the `for` statement of `calculate_partial_integral`, run with a
  bound (`fuel`) on the number of times its condition is evaluated;
* `calculate_partial_integral` is the worker task;
* `thread_start`, `thread_end`, `worker_bounds` are the bounds computed by
  the dispatch loop of `main`;
* `main` is the orchestration: step, dispatch, join, reduction, exit status.

**Binary64 arithmetic.**  Every `double` is the rational it denotes and every
operation (`+`, `*`, `/`, conversion of `size_t`) rounds its exact result to
the nearest binary64 value, ties to even (`round_double`).  The definitions
`loop_double`, `calculate_partial_integral_double`, `thread_start_double`,
`thread_end_double`, `worker_bounds_double`, `main_double` follow the same
source lines with the rounded operations `fadd`, `fmul`, `fdiv`.  Rounding of
`x += step` changes how many bodies the loop runs, which exact arithmetic does
not show.

Timing and the text of the prompts are not part of the model.
-/

namespace LiczbaPi

/-- The variables of the `for` statement in `calculate_partial_integral`:
the loop variable `x` and the accumulator `partial_sum`.  The field
`iterations` is a ghost counter of executed loop bodies; the program does
not read it. -/
structure LoopState where
  x : ℚ
  partial_sum : ℚ
  iterations : Nat
  deriving DecidableEq, Repr

/-- The statement `for (x = start; x < end; x += step) partial_sum += 4.0 / (1.0 + x * x) * step;`
started in state `s`.  Each evaluation of the condition `x < end` consumes one
unit of fuel; `none` means the fuel ran out before the condition failed. -/
def loop (end_ step : ℚ) : Nat → LoopState → Option LoopState
  | 0, _ => none
  | fuel + 1, s =>
    if s.x < end_ then
      loop end_ step fuel
        { x := s.x + step
          partial_sum := s.partial_sum + 4 / (1 + s.x * s.x) * step
          iterations := s.iterations + 1 }
    else
      some s

/-- The worker task: `partial_sum = 0.0`, the loop from `x = start`, and
`result = partial_sum`.  The written `result` is returned. -/
def calculate_partial_integral (fuel : Nat) (start end_ step : ℚ) : Option ℚ :=
  (loop end_ step fuel { x := start, partial_sum := 0, iterations := 0 }).map
    LoopState.partial_sum

/-- The value `double thread_start = i * (1.0 / num_threads)` of `main`. -/
def thread_start (num_threads i : Int) : ℚ :=
  (i : ℚ) * (1 / (num_threads : ℚ))

/-- The value `double thread_end = (i + 1) * (1.0 / num_threads)` of `main`. -/
def thread_end (num_threads i : Int) : ℚ :=
  ((i + 1 : Int) : ℚ) * (1 / (num_threads : ℚ))

/-- The pairs `(thread_start, thread_end)` produced by the dispatch loop
`for (int i = 0; i < num_threads; ++i)`, in worker-index order. -/
def worker_bounds (num_threads : Int) : List (ℚ × ℚ) :=
  (List.range num_threads.toNat).map fun i : Nat =>
    (thread_start num_threads (i : Int), thread_end num_threads (i : Int))

/-- The workers spawned for a list of bounds, each writing its own slot of
`results`; the join loop waits for all of them.  The slots are disjoint, so
the workers are run one after the other here.  `none` when some worker does
not finish within the fuel. -/
def run_workers (fuel : Nat) (step : ℚ) : List (ℚ × ℚ) → Option (List ℚ)
  | [] => some []
  | b :: bs =>
    match calculate_partial_integral fuel b.1 b.2 step, run_workers fuel step bs with
    | some r, some rs => some (r :: rs)
    | _, _ => none

/-- The reduction `double pi = 0.0; for (result : results) pi += result;`. -/
def sum_results (results : List ℚ) : ℚ :=
  results.foldl (fun pi result => pi + result) 0

/-- How a run of `main` ends: `printed pi status` is the line with the
approximation followed by `return status`; `aborted` is the termination of
the process by the exception that `std::vector<double> results(num_threads, 0.0)`
throws for a negative `num_threads` (nothing is printed). -/
inductive Outcome where
  | aborted
  | printed (pi : ℚ) (status : Int)
  deriving DecidableEq, Repr

/-- The function `main` on the two values read from the input: `num_intervals`
(a `size_t`) and `num_threads` (an `int`).  There is no validation of either
value.  For `num_intervals = 0` the C++ quotient `1.0 / num_intervals` is an
infinity, which exact arithmetic has no value for; the statements about
workers below assume `0 < num_intervals`. -/
def main (fuel : Nat) (num_intervals : Nat) (num_threads : Int) : Option Outcome :=
  let step : ℚ := 1 / (num_intervals : ℚ)
  if num_threads < 0 then
    some Outcome.aborted
  else
    match run_workers fuel step (worker_bounds num_threads) with
    | none => none
    | some results => some (Outcome.printed (sum_results results) 0)

/-- The final value `pi` of a run of `main`, read off the outcome of the run
with fuel `num_intervals + 1` (no worker needs more, see `main_eq`); `0` when
that run prints nothing. -/
def result (num_intervals : Nat) (num_threads : Int) : ℚ :=
  match main (num_intervals + 1) num_intervals num_threads with
  | some (Outcome.printed pi _) => pi
  | _ => 0

/-- The integrand sample `4.0 / (1.0 + x * x)` taken by the loop body. -/
def integrand (x : ℚ) : ℚ := 4 / (1 + x * x)

/-- Closed form of the value a worker writes for a positive step: the left
sum with one term per sample point `start + k * step` below `end_`. -/
def left_sum (start end_ step : ℚ) : ℚ :=
  ∑ k in Finset.range ⌈(end_ - start) / step⌉.toNat, integrand (start + (k : ℚ) * step) * step

/-! ### Binary64 arithmetic -/

/-- Floor of the binary logarithm of `n ≥ 1` by repeated halving (`fuel ≥ n`
is enough); `0` for `n = 0`. -/
def log2_floor : Nat → Nat → Nat
  | 0, _ => 0
  | fuel + 1, n => if n < 2 then 0 else log2_floor fuel (n / 2) + 1

/-- The binary exponent of a non-zero rational: the integer `c` with
`2 ^ c ≤ |q| < 2 ^ (c + 1)` (see `ilog2_spec`).  The difference of the bit
lengths of numerator and denominator is `c` or `c + 1`; one comparison
decides. -/
def ilog2 (q : ℚ) : Int :=
  if (2 : ℚ) ^ ((log2_floor q.num.natAbs q.num.natAbs : Int) - (log2_floor q.den q.den : Int)) ≤ |q|
  then (log2_floor q.num.natAbs q.num.natAbs : Int) - (log2_floor q.den q.den : Int)
  else (log2_floor q.num.natAbs q.num.natAbs : Int) - (log2_floor q.den q.den : Int) - 1

/-- The integer nearest to `s`, a tie going to the even neighbour. -/
def round_half_even (s : ℚ) : Int :=
  if s - (⌊s⌋ : ℚ) < 1 / 2 then ⌊s⌋
  else if 1 / 2 < s - (⌊s⌋ : ℚ) then ⌊s⌋ + 1
  else if ⌊s⌋ % 2 = 0 then ⌊s⌋ else ⌊s⌋ + 1

/-- Rounding of an exact result to binary64, round-to-nearest, ties-to-even:
the result is the multiple of the quantum `2 ^ (e - 52)` nearest to `q`, where
`e` is the binary exponent of `q`, not below `-1022` (so the subnormal range
has the fixed quantum `2 ^ (-1074)`).  Overflow to infinity and NaN are
outside this model; it is exact for results of magnitude below `2 ^ 1024`,
which covers every run of `main` with `num_intervals ≥ 1`. -/
def round_double (q : ℚ) : ℚ :=
  if q = 0 then 0
  else (round_half_even (q / 2 ^ (max (ilog2 q) (-1022) - 52)) : ℚ) *
    2 ^ (max (ilog2 q) (-1022) - 52)

/-- The `double` sum `a + b`. -/
def fadd (a b : ℚ) : ℚ := round_double (a + b)

/-- The `double` product `a * b`. -/
def fmul (a b : ℚ) : ℚ := round_double (a * b)

/-- The `double` quotient `a / b`, for `b ≠ 0`. -/
def fdiv (a b : ℚ) : ℚ := round_double (a / b)

/-- The statement `for (x = start; x < end; x += step) partial_sum += 4.0 / (1.0 + x * x) * step;`
in binary64: `x * x`, `1.0 + _`, `4.0 / _`, `_ * step`, `partial_sum + _` and
`x + step` are each rounded.  Fuel as in `loop`. -/
def loop_double (end_ step : ℚ) : Nat → LoopState → Option LoopState
  | 0, _ => none
  | fuel + 1, s =>
    if s.x < end_ then
      loop_double end_ step fuel
        { x := fadd s.x step
          partial_sum := fadd s.partial_sum (fmul (fdiv 4 (fadd 1 (fmul s.x s.x))) step)
          iterations := s.iterations + 1 }
    else
      some s

/-- The worker task in binary64. -/
def calculate_partial_integral_double (fuel : Nat) (start end_ step : ℚ) : Option ℚ :=
  (loop_double end_ step fuel { x := start, partial_sum := 0, iterations := 0 }).map
    LoopState.partial_sum

/-- The value `double thread_start = i * (1.0 / num_threads)` in binary64. -/
def thread_start_double (num_threads i : Int) : ℚ :=
  fmul (i : ℚ) (fdiv 1 (num_threads : ℚ))

/-- The value `double thread_end = (i + 1) * (1.0 / num_threads)` in binary64. -/
def thread_end_double (num_threads i : Int) : ℚ :=
  fmul ((i + 1 : Int) : ℚ) (fdiv 1 (num_threads : ℚ))

/-- The pairs of bounds of the dispatch loop in binary64, in worker order. -/
def worker_bounds_double (num_threads : Int) : List (ℚ × ℚ) :=
  (List.range num_threads.toNat).map fun i : Nat =>
    (thread_start_double num_threads (i : Int), thread_end_double num_threads (i : Int))

/-- The workers of a list of bounds in binary64; `none` when some worker does
not finish within the fuel. -/
def run_workers_double (fuel : Nat) (step : ℚ) : List (ℚ × ℚ) → Option (List ℚ)
  | [] => some []
  | b :: bs =>
    match calculate_partial_integral_double fuel b.1 b.2 step,
        run_workers_double fuel step bs with
    | some r, some rs => some (r :: rs)
    | _, _ => none

/-- The reduction `double pi = 0.0; for (result : results) pi += result;` in
binary64. -/
def sum_results_double (results : List ℚ) : ℚ :=
  results.foldl (fun pi result => fadd pi result) 0

/-- The function `main` in binary64, for `num_intervals ≥ 1`: the step is
`1.0 / num_intervals` with `num_intervals` converted to `double` first. -/
def main_double (fuel : Nat) (num_intervals : Nat) (num_threads : Int) : Option Outcome :=
  if num_threads < 0 then
    some Outcome.aborted
  else
    match run_workers_double fuel (fdiv 1 (round_double (num_intervals : ℚ)))
        (worker_bounds_double num_threads) with
    | none => none
    | some results => some (Outcome.printed (sum_results_double results) 0)

/-! ## The loop of the worker task -/

/-- Running the loop from state `s`: when the condition holds at the first
`n` sample points and fails at the next one, any fuel above `n` returns the
state after exactly `n` bodies. -/
theorem loop_run (end_ step : ℚ) (n : Nat) :
    ∀ (fuel : Nat) (s : LoopState), n < fuel →
      (∀ k : Nat, k < n → s.x + (k : ℚ) * step < end_) →
      ¬ (s.x + (n : ℚ) * step < end_) →
      loop end_ step fuel s =
        some { x := s.x + (n : ℚ) * step
               partial_sum := s.partial_sum +
                 ∑ k in Finset.range n, integrand (s.x + (k : ℚ) * step) * step
               iterations := s.iterations + n } := by
  induction n with
  | zero =>
    intro fuel s hfuel _ hstop
    obtain ⟨f, rfl⟩ : ∃ f, fuel = f + 1 := ⟨fuel - 1, by omega⟩
    have hx : ¬ s.x < end_ := by simpa using hstop
    simp [loop, hx]
  | succ n ih =>
    intro fuel s hfuel hgo hstop
    obtain ⟨f, rfl⟩ : ∃ f, fuel = f + 1 := ⟨fuel - 1, by omega⟩
    have hx : s.x < end_ := by simpa using hgo 0 (Nat.succ_pos n)
    have hshift : ∀ k : Nat, s.x + step + (k : ℚ) * step = s.x + ((k + 1 : Nat) : ℚ) * step := by
      intro k
      push_cast
      ring
    rw [loop, if_pos hx]
    rw [ih f _ (by omega)
      (by
        intro k hk
        simpa only [hshift] using hgo (k + 1) (by omega))
      (by simpa only [hshift] using hstop)]
    simp only [hshift]
    rw [Finset.sum_range_succ' (fun k : Nat => integrand (s.x + (k : ℚ) * step) * step) n]
    simp only [Nat.cast_zero, zero_mul, add_zero, integrand]
    congr 2
    · ring
    · omega

/-- The number of loop bodies executed from `start`: the sample points
`start + k * step` below `end_` are exactly those with `k` below the ceiling
of `(end_ - start) / step` (taken as `0` when that is negative). -/
theorem sample_lt_iff (start end_ step : ℚ) (hstep : 0 < step) (k : Nat) :
    start + (k : ℚ) * step < end_ ↔ k < ⌈(end_ - start) / step⌉.toNat := by
  rw [Int.lt_toNat, Int.lt_ceil, lt_div_iff₀ hstep]
  constructor <;> intro h <;> push_cast at * <;> linarith

/-- The final state of the loop of `calculate_partial_integral` for a
positive step. -/
theorem loop_from_start (start end_ step : ℚ) (hstep : 0 < step) (fuel : Nat)
    (hfuel : ⌈(end_ - start) / step⌉.toNat < fuel) :
    loop end_ step fuel { x := start, partial_sum := 0, iterations := 0 } =
      some { x := start + (⌈(end_ - start) / step⌉.toNat : ℚ) * step
             partial_sum := ∑ k in Finset.range ⌈(end_ - start) / step⌉.toNat,
               integrand (start + (k : ℚ) * step) * step
             iterations := ⌈(end_ - start) / step⌉.toNat } := by
  have h := loop_run end_ step ⌈(end_ - start) / step⌉.toNat fuel
    { x := start, partial_sum := 0, iterations := 0 } hfuel
    (fun k hk => (sample_lt_iff start end_ step hstep k).2 hk)
    (fun hlt => lt_irrefl _ ((sample_lt_iff start end_ step hstep _).1 hlt))
  simpa using h

/-- The value written by `calculate_partial_integral` for a positive step. -/
theorem calculate_partial_integral_eq (start end_ step : ℚ) (hstep : 0 < step) (fuel : Nat)
    (hfuel : ⌈(end_ - start) / step⌉.toNat < fuel) :
    calculate_partial_integral fuel start end_ step = some (left_sum start end_ step) := by
  simp [calculate_partial_integral, left_sum, loop_from_start start end_ step hstep fuel hfuel]

/-! ## Dispatch, join and reduction -/

/-- The bounds of worker `i` in closed form. -/
theorem thread_bounds_eq (T i : Int) :
    thread_start T i = (i : ℚ) / (T : ℚ) ∧ thread_end T i = ((i : ℚ) + 1) / (T : ℚ) := by
  constructor
  · simp only [thread_start]
    ring
  · simp only [thread_end]
    push_cast
    ring

/-- The reduction loop adds the results up. -/
theorem sum_results_eq_sum (results : List ℚ) : sum_results results = results.sum := by
  have h : ∀ (l : List ℚ) (a : ℚ),
      List.foldl (fun pi result => pi + result) a l = a + l.sum := by
    intro l
    induction l with
    | nil => intro a; simp
    | cons r rs ih =>
      intro a
      rw [List.foldl_cons, ih, List.sum_cons]
      ring
  simpa [sum_results] using h results 0

/-- The sum of a list indexed by `List.range` is the sum over `Finset.range`. -/
theorem sum_map_range (g : Nat → ℚ) (n : Nat) :
    ((List.range n).map g).sum = ∑ i in Finset.range n, g i := by
  induction n with
  | zero => simp
  | succ n ih => simp [List.range_succ, Finset.sum_range_succ, ih]

/-- When every worker of a list finishes with the value `g` gives it, the
results collection holds those values in order. -/
theorem run_workers_eq (fuel : Nat) (step : ℚ) (g : ℚ × ℚ → ℚ) :
    ∀ bs : List (ℚ × ℚ),
      (∀ b ∈ bs, calculate_partial_integral fuel b.1 b.2 step = some (g b)) →
      run_workers fuel step bs = some (bs.map g) := by
  intro bs
  induction bs with
  | nil => intro _; rfl
  | cons b bs ih =>
    intro h
    have hb := h b (List.mem_cons_self b bs)
    have hbs := ih fun c hc => h c (List.mem_cons_of_mem b hc)
    simp [run_workers, hb, hbs]

/-- The number of loop bodies of one worker of `main` is at most `num_intervals`. -/
theorem worker_iterations_le (N : Nat) (hN : 0 < N) (T : Int) (i : Int) :
    ⌈(thread_end T i - thread_start T i) / (1 / (N : ℚ))⌉.toNat ≤ N := by
  have hNq : (0 : ℚ) < N := by exact_mod_cast hN
  have hw : thread_end T i - thread_start T i = 1 / (T : ℚ) := by
    simp only [thread_end, thread_start]
    push_cast
    ring
  rw [hw, Int.toNat_le, Int.ceil_le]
  rcases le_or_lt T 0 with hT | hT
  · have : (1 : ℚ) / (T : ℚ) ≤ 0 := by
      apply div_nonpos_of_nonneg_of_nonpos zero_le_one
      exact_mod_cast hT
    have h2 : 1 / (T : ℚ) / (1 / (N : ℚ)) ≤ 0 :=
      div_nonpos_of_nonpos_of_nonneg this (by positivity)
    push_cast
    linarith
  · have hTq : (1 : ℚ) ≤ T := by exact_mod_cast hT
    have h1 : 1 / (T : ℚ) ≤ 1 := by
      rw [div_le_one (by linarith)]
      exact hTq
    rw [div_le_iff₀ (by positivity)]
    push_cast
    have : (N : ℚ) * (1 / (N : ℚ)) = 1 := by field_simp
    linarith

/-- The outcome of `main` for a positive interval count and a non-negative
worker count: the sum, in worker order, of the workers' left sums. -/
theorem main_eq (N : Nat) (hN : 0 < N) (T : Int) (hT : 0 ≤ T) (fuel : Nat) (hfuel : N < fuel) :
    main fuel N T = some (Outcome.printed
      (∑ i in Finset.range T.toNat,
        left_sum (thread_start T (i : Int)) (thread_end T (i : Int)) (1 / (N : ℚ))) 0) := by
  have hNq : (0 : ℚ) < N := by exact_mod_cast hN
  have hstep : (0 : ℚ) < 1 / (N : ℚ) := by positivity
  have hrun := run_workers_eq fuel (1 / (N : ℚ))
    (fun b => left_sum b.1 b.2 (1 / (N : ℚ)))
    (worker_bounds T)
    (by
      intro b hb
      simp only [worker_bounds, List.mem_map, List.mem_range] at hb
      obtain ⟨i, _, rfl⟩ := hb
      exact calculate_partial_integral_eq _ _ _ hstep fuel
        (lt_of_le_of_lt (worker_iterations_le N hN T i) hfuel))
  simp only [main, if_neg (not_lt.2 hT), hrun, sum_results_eq_sum]
  rw [worker_bounds, List.map_map, sum_map_range]
  rfl

/-! ## Comparison with the arctangent -/

/-- The increment of the arctangent over a slice `[a, a + h]` with `a ≥ 0`
lies strictly between the rectangles of the right and of the left endpoint. -/
theorem arctan_slice (a h : ℝ) (ha : 0 ≤ a) (hh : 0 < h) :
    1 / (1 + (a + h) ^ 2) * h < Real.arctan (a + h) - Real.arctan a ∧
    Real.arctan (a + h) - Real.arctan a < 1 / (1 + a ^ 2) * h := by
  obtain ⟨c, ⟨hc1, hc2⟩, hc⟩ := exists_deriv_eq_slope Real.arctan (by linarith : a < a + h)
    Real.continuous_arctan.continuousOn Real.differentiable_arctan.differentiableOn
  rw [Real.deriv_arctan] at hc
  have hslope : Real.arctan (a + h) - Real.arctan a = 1 / (1 + c ^ 2) * h := by
    simp only at hc
    rw [hc]
    field_simp
  have hc0 : 0 < c := lt_of_le_of_lt ha hc1
  rw [hslope]
  constructor
  · apply mul_lt_mul_of_pos_right _ hh
    apply one_div_lt_one_div_of_lt (by positivity)
    nlinarith
  · apply mul_lt_mul_of_pos_right _ hh
    apply one_div_lt_one_div_of_lt (by positivity)
    nlinarith

/-- The left sum of `m` slices from `s ≥ 0` is at least the increment of
`4 arctan` over them, strictly so when there is a slice. -/
theorem left_terms_gt (s h : ℝ) (hs : 0 ≤ s) (hh : 0 < h) (m : ℕ) :
    4 * Real.arctan (s + (m : ℝ) * h) - 4 * Real.arctan s ≤
      ∑ k in Finset.range m, 4 / (1 + (s + (k : ℝ) * h) ^ 2) * h ∧
    (0 < m → 4 * Real.arctan (s + (m : ℝ) * h) - 4 * Real.arctan s <
      ∑ k in Finset.range m, 4 / (1 + (s + (k : ℝ) * h) ^ 2) * h) := by
  induction m with
  | zero => simp
  | succ m ih =>
    have hk : 0 ≤ s + (m : ℝ) * h := by positivity
    have hsl := (arctan_slice (s + (m : ℝ) * h) h hk hh).2
    have he : s + ((m + 1 : ℕ) : ℝ) * h = s + (m : ℝ) * h + h := by push_cast; ring
    have hdiv : 4 / (1 + (s + (m : ℝ) * h) ^ 2) * h = 4 * (1 / (1 + (s + (m : ℝ) * h) ^ 2) * h) := by
      ring
    rw [Finset.sum_range_succ, he, hdiv]
    have := ih.1
    constructor
    · linarith
    · intro _
      linarith

/-- The left sum of `m + 1` slices from `s ≥ 0` is at most `4 * h` plus the
increment of `4 arctan` over the first `m` of them. -/
theorem left_terms_le (s h : ℝ) (hs : 0 ≤ s) (hh : 0 < h) (m : ℕ) :
    ∑ k in Finset.range (m + 1), 4 / (1 + (s + (k : ℝ) * h) ^ 2) * h ≤
      4 * h + (4 * Real.arctan (s + (m : ℝ) * h) - 4 * Real.arctan s) := by
  induction m with
  | zero =>
    simp only [zero_add, Finset.sum_range_one, Nat.cast_zero, zero_mul, add_zero, sub_self]
    apply mul_le_mul_of_nonneg_right _ hh.le
    rw [div_le_iff₀ (by positivity)]
    nlinarith [sq_nonneg s]
  | succ m ih =>
    have hk : 0 ≤ s + (m : ℝ) * h := by positivity
    have hsl := (arctan_slice (s + (m : ℝ) * h) h hk hh).1
    have he : s + ((m + 1 : ℕ) : ℝ) * h = s + (m : ℝ) * h + h := by push_cast; ring
    have hdiv : 4 / (1 + (s + (m : ℝ) * h + h) ^ 2) * h =
        4 * (1 / (1 + (s + (m : ℝ) * h + h) ^ 2) * h) := by
      ring
    rw [Finset.sum_range_succ, he, hdiv]
    linarith

/-- The value of `result`, and of every run of `main` with enough fuel, for
a positive interval count and a non-negative worker count. -/
theorem result_eq (N : Nat) (hN : 0 < N) (T : Int) (hT : 0 ≤ T) :
    result N T = ∑ i in Finset.range T.toNat,
      left_sum (thread_start T (i : Int)) (thread_end T (i : Int)) (1 / (N : ℚ)) := by
  simp only [result, main_eq N hN T hT (N + 1) (Nat.lt_succ_self N)]

/-- Every run of `main` with fuel above `N` prints `result N T`. -/
theorem main_eq_result (N : Nat) (hN : 0 < N) (T : Int) (hT : 0 ≤ T) (fuel : Nat)
    (hfuel : N < fuel) : main fuel N T = some (Outcome.printed (result N T) 0) := by
  rw [result_eq N hN T hT, main_eq N hN T hT fuel hfuel]

/-- The left sum of a worker, read in the reals. -/
theorem left_sum_cast (s e h : ℚ) :
    ((left_sum s e h : ℚ) : ℝ) =
      ∑ k in Finset.range ⌈(e - s) / h⌉.toNat,
        4 / (1 + ((s : ℝ) + (k : ℝ) * (h : ℝ)) ^ 2) * (h : ℝ) := by
  simp only [left_sum, integrand]
  push_cast
  apply Finset.sum_congr rfl
  intro k _
  congr 2
  ring

/-- A worker's left sum on `[s, e)` with `0 ≤ s < e` lies strictly above
`4 arctan e - 4 arctan s` and exceeds it by at most `4 * h`. -/
theorem left_sum_bounds (s e h : ℚ) (hs : 0 ≤ s) (hse : s < e) (hh : 0 < h) :
    4 * Real.arctan (e : ℝ) - 4 * Real.arctan (s : ℝ) < ((left_sum s e h : ℚ) : ℝ) ∧
    ((left_sum s e h : ℚ) : ℝ) ≤
      4 * (h : ℝ) + (4 * Real.arctan (e : ℝ) - 4 * Real.arctan (s : ℝ)) := by
  have hiff := sample_lt_iff s e h hh
  have hpos : 0 < ⌈(e - s) / h⌉.toNat := (hiff 0).1 (by simpa using hse)
  obtain ⟨m, hm⟩ : ∃ m, ⌈(e - s) / h⌉.toNat = m + 1 := ⟨_, (Nat.succ_pred_eq_of_pos hpos).symm⟩
  have hlast : s + (m : ℚ) * h < e := (hiff m).2 (by omega)
  have hend : e ≤ s + ((m + 1 : Nat) : ℚ) * h := by
    refine not_lt.1 fun hlt => ?_
    have := (hiff (m + 1)).1 hlt
    omega
  have hlastR : (s : ℝ) + (m : ℝ) * (h : ℝ) < (e : ℝ) := by exact_mod_cast hlast
  have hendR : (e : ℝ) ≤ (s : ℝ) + ((m + 1 : Nat) : ℝ) * (h : ℝ) := by exact_mod_cast hend
  have hsR : (0 : ℝ) ≤ (s : ℝ) := by exact_mod_cast hs
  have hhR : (0 : ℝ) < (h : ℝ) := by exact_mod_cast hh
  rw [left_sum_cast, hm]
  constructor
  · have h1 := (left_terms_gt (s : ℝ) (h : ℝ) hsR hhR (m + 1)).2 (Nat.succ_pos m)
    have h2 := Real.arctan_strictMono.monotone hendR
    linarith
  · have h1 := left_terms_le (s : ℝ) (h : ℝ) hsR hhR m
    have h2 := Real.arctan_strictMono.monotone hlastR.le
    linarith

/-- The bounds of worker `i < T` satisfy `0 ≤ thread_start < thread_end`. -/
theorem thread_bounds_order (T : Nat) (hT : 0 < T) (i : Nat) :
    0 ≤ thread_start (T : Int) (i : Int) ∧
    thread_start (T : Int) (i : Int) < thread_end (T : Int) (i : Int) := by
  have hTq : (0 : ℚ) < (T : ℚ) := by exact_mod_cast hT
  rw [(thread_bounds_eq T i).1, (thread_bounds_eq T i).2]
  push_cast
  constructor
  · positivity
  · rw [div_lt_div_iff_of_pos_right hTq]
    linarith

/-- The exact integrals of the workers' intervals add up to `π`. -/
theorem sum_arctan_bounds (T : Nat) (hT : 0 < T) :
    ∑ i in Finset.range T,
      (4 * Real.arctan ((thread_end (T : Int) (i : Int) : ℚ) : ℝ) -
        4 * Real.arctan ((thread_start (T : Int) (i : Int) : ℚ) : ℝ)) = Real.pi := by
  have hTq : (T : ℚ) ≠ 0 := by exact_mod_cast hT.ne'
  have hstep : ∀ i : Nat, thread_end (T : Int) (i : Int) =
      thread_start (T : Int) ((i + 1 : Nat) : Int) := by
    intro i
    rw [(thread_bounds_eq T i).2, (thread_bounds_eq T ((i + 1 : Nat) : Int)).1]
    push_cast
    rfl
  simp only [hstep]
  rw [Finset.sum_range_sub
    (fun i : Nat => 4 * Real.arctan ((thread_start (T : Int) (i : Int) : ℚ) : ℝ)) T]
  have h1 : thread_start (T : Int) (T : Int) = 1 := by
    rw [(thread_bounds_eq T T).1]
    push_cast
    field_simp
  have h0 : thread_start (T : Int) ((0 : Nat) : Int) = 0 := by simp [thread_start]
  rw [h1, h0]
  simp only [Rat.cast_one, Rat.cast_zero, Real.arctan_one, Real.arctan_zero]
  ring

/-- The printed value lies strictly above `π` and exceeds it by at most
`4 * T / N`. -/
theorem result_bounds (N T : Nat) (hN : 0 < N) (hT : 0 < T) :
    Real.pi < ((result N (T : Int) : ℚ) : ℝ) ∧
    ((result N (T : Int) : ℚ) : ℝ) ≤ Real.pi + 4 * (T : ℝ) / (N : ℝ) := by
  have hNq : (0 : ℚ) < 1 / (N : ℚ) := by
    have : (0 : ℚ) < N := by exact_mod_cast hN
    positivity
  have hb : ∀ i : Nat, _ := fun i =>
    left_sum_bounds _ _ _ (thread_bounds_order T hT i).1 (thread_bounds_order T hT i).2 hNq
  rw [result_eq N hN T (Int.natCast_nonneg T), Int.toNat_natCast, Rat.cast_sum]
  constructor
  · rw [← sum_arctan_bounds T hT]
    apply Finset.sum_lt_sum_of_nonempty
    · exact Finset.nonempty_range_iff.2 hT.ne'
    · intro i _
      exact (hb i).1
  · have hsum : ∑ i in Finset.range T,
        (4 * (((1 / (N : ℚ) : ℚ)) : ℝ) +
          (4 * Real.arctan ((thread_end (T : Int) (i : Int) : ℚ) : ℝ) -
            4 * Real.arctan ((thread_start (T : Int) (i : Int) : ℚ) : ℝ))) =
        Real.pi + 4 * (T : ℝ) / (N : ℝ) := by
      rw [Finset.sum_add_distrib, sum_arctan_bounds T hT, Finset.sum_const, Finset.card_range]
      push_cast
      simp only [nsmul_eq_mul]
      ring
    rw [← hsum]
    apply Finset.sum_le_sum
    intro i _
    exact (hb i).2

/-! ## Properties of the specification in exact arithmetic -/

/-- Exact arithmetic: for every interval count `N > 0` and one worker, `main`
finishes (any fuel above `N`) with exit status 0 and the value of the
sequential left Riemann sum over `[0, 1)` with step `1 / N`, the sum over
`k < N` of `4 / (1 + (k / N)^2) * (1 / N)`. -/
theorem exact_single_worker_eq_left_riemann_sum (N : Nat) (hN : 0 < N) (fuel : Nat)
    (hfuel : N < fuel) :
    main fuel N 1 = some (Outcome.printed
      (∑ k in Finset.range N, 4 / (1 + ((k : ℚ) / (N : ℚ)) ^ 2) * (1 / (N : ℚ))) 0) := by
  have hNq : (0 : ℚ) < N := by exact_mod_cast hN
  have hm : ⌈(thread_end 1 ((0 : Nat) : Int) - thread_start 1 ((0 : Nat) : Int)) /
      (1 / (N : ℚ))⌉.toNat = N := by
    have : (thread_end 1 ((0 : Nat) : Int) - thread_start 1 ((0 : Nat) : Int)) /
        (1 / (N : ℚ)) = ((N : Int) : ℚ) := by
      simp [thread_end, thread_start]
    rw [this, Int.ceil_intCast, Int.toNat_natCast]
  rw [main_eq N hN 1 zero_le_one fuel hfuel]
  have h1 : (1 : Int).toNat = 1 := rfl
  rw [h1, Finset.sum_range_one, left_sum, hm]
  congr 2
  apply Finset.sum_congr rfl
  intro k _
  simp only [integrand, thread_start]
  congr 2
  push_cast
  ring

/-- C6: for `N = 1` and `T = 1` the single worker on `[0, 1)` with step `1`
executes one loop body, at `x = 0`, adding `4 / (1 + 0 * 0) * 1 = 4`, and
`main` prints exactly `4` with exit status 0. -/
theorem main_one_one (fuel : Nat) (hfuel : 2 ≤ fuel) :
    worker_bounds 1 = [(0, 1)] ∧
    loop 1 (1 / ((1 : Nat) : ℚ)) fuel { x := 0, partial_sum := 0, iterations := 0 } =
      some { x := 1, partial_sum := 4 / (1 + 0 * 0) * 1, iterations := 1 } ∧
    main fuel 1 1 = some (Outcome.printed 4 0) := by
  obtain ⟨f, rfl⟩ : ∃ f, fuel = f + 2 := ⟨fuel - 2, by omega⟩
  have hb : worker_bounds 1 = [(0, 1)] := by
    simp [worker_bounds, thread_start, thread_end, List.range, List.range.loop]
  refine ⟨hb, ?_, ?_⟩
  · simp [loop]
  · have hw : calculate_partial_integral (f + 2) 0 1 (1 / ((1 : Nat) : ℚ)) = some 4 := by
      simp [calculate_partial_integral, loop]
    have hr : run_workers (f + 2) (1 / ((1 : Nat) : ℚ)) [(0, 1)] = some [4] := by
      simp only [run_workers, hw]
    have hlt : ¬ ((1 : Int) < 0) := by decide
    simp only [main, if_neg hlt, hb, hr]
    simp [sum_results]

/-- Witness for C6 with fuel 2. -/
theorem main_one_one_witness :
    worker_bounds 1 = [(0, 1)] ∧
    loop 1 (1 / ((1 : Nat) : ℚ)) 2 { x := 0, partial_sum := 0, iterations := 0 } =
      some { x := 1, partial_sum := 4 / (1 + 0 * 0) * 1, iterations := 1 } ∧
    main 2 1 1 = some (Outcome.printed 4 0) :=
  main_one_one 2 (le_refl 2)

/-- C3 refuted: with `N = 1` and `T = 0` the run of `main` prints the value
`0` and returns exit status 0, so not every input with `N = 0` or `T ≤ 0`
ends in an error. -/
theorem main_zero_threads_prints_zero :
    main 1 1 0 = some (Outcome.printed 0 0) ∧
    ¬ (∀ (fuel N : Nat) (T : Int), (N = 0 ∨ T ≤ 0) →
        ∀ (pi : ℚ), main fuel N T ≠ some (Outcome.printed pi 0)) := by
  have h : main 1 1 0 = some (Outcome.printed 0 0) := by
    simp [main, worker_bounds, run_workers, sum_results]
  exact ⟨h, fun hall => hall 1 1 0 (Or.inr (le_refl 0)) 0 h⟩

/-- C3 as amended: `main` validates nothing.  For `T = 0` and every `N` it
prints the value `0` and returns 0; for `T < 0` it is aborted before any
approximation is produced; and every run that prints an approximation
returns exit status 0. -/
theorem main_unvalidated :
    (∀ (fuel N : Nat), main fuel N 0 = some (Outcome.printed 0 0)) ∧
    (∀ (fuel N : Nat) (T : Int), T < 0 → main fuel N T = some Outcome.aborted) ∧
    (∀ (fuel N : Nat) (T : Int) (pi : ℚ) (status : Int),
      main fuel N T = some (Outcome.printed pi status) → status = 0) := by
  refine ⟨?_, ?_, ?_⟩
  · intro fuel N
    simp [main, worker_bounds, run_workers, sum_results]
  · intro fuel N T hT
    simp [main, hT]
  · intro fuel N T pi status h
    unfold main at h
    split_ifs at h with hT
    · simp at h
    · dsimp only at h
      split at h
      · simp at h
      · simp only [Option.some.injEq, Outcome.printed.injEq] at h
        exact h.2.symm

/-- Witness for the amended C3 at `N = 0, T = 0`, at `T = -1` and at the run
`N = 1, T = 0`. -/
theorem main_unvalidated_witness :
    main 0 0 0 = some (Outcome.printed 0 0) ∧
    main 5 3 (-1) = some Outcome.aborted ∧
    ((0 : Int) = 0) :=
  ⟨main_unvalidated.1 0 0, main_unvalidated.2.1 5 3 (-1) (by decide),
    main_unvalidated.2.2 1 1 0 0 0 (main_unvalidated.1 1 1)⟩

/-- Exact arithmetic: for every `start`, `end_` and every positive `step` the
loop of `calculate_partial_integral` terminates (any fuel above `m`
suffices) after `m` bodies and writes the sum over `k < m` of
`4 / (1 + (start + k * step)^2) * step`, where `m` is the number of `k ≥ 0`
with `start + k * step < end_`: the ceiling of `(end_ - start) / step` when
`start < end_`, and `0`, with result `0`, when `start ≥ end_`. -/
theorem exact_calculate_partial_integral_terminates (start end_ step : ℚ) (hstep : 0 < step) :
    ∃ m : Nat,
      (∀ k : Nat, start + (k : ℚ) * step < end_ ↔ k < m) ∧
      {k : Nat | start + (k : ℚ) * step < end_}.ncard = m ∧
      (start < end_ → (m : Int) = ⌈(end_ - start) / step⌉) ∧
      (end_ ≤ start → m = 0) ∧
      (∀ fuel : Nat, m < fuel →
        (∃ s : LoopState,
          loop end_ step fuel { x := start, partial_sum := 0, iterations := 0 } = some s ∧
          s.iterations = m) ∧
        calculate_partial_integral fuel start end_ step =
          some (∑ k in Finset.range m, 4 / (1 + (start + (k : ℚ) * step) ^ 2) * step)) ∧
      (end_ ≤ start → ∀ fuel : Nat, 0 < fuel →
        calculate_partial_integral fuel start end_ step = some 0) := by
  have hle : end_ ≤ start → ⌈(end_ - start) / step⌉.toNat = 0 := by
    intro h
    rw [Int.toNat_eq_zero, Int.ceil_le]
    have : (end_ - start) / step ≤ 0 :=
      div_nonpos_of_nonpos_of_nonneg (by linarith) hstep.le
    simpa using this
  have hval : ∀ fuel : Nat, ⌈(end_ - start) / step⌉.toNat < fuel →
      calculate_partial_integral fuel start end_ step =
        some (∑ k in Finset.range ⌈(end_ - start) / step⌉.toNat,
          4 / (1 + (start + (k : ℚ) * step) ^ 2) * step) := by
    intro fuel hfuel
    rw [calculate_partial_integral_eq start end_ step hstep fuel hfuel, left_sum]
    congr 1
    apply Finset.sum_congr rfl
    intro k _
    simp only [integrand]
    congr 2
    ring
  refine ⟨⌈(end_ - start) / step⌉.toNat, sample_lt_iff start end_ step hstep, ?_, ?_, hle, ?_, ?_⟩
  · have hset : {k : Nat | start + (k : ℚ) * step < end_} =
        ((Finset.range ⌈(end_ - start) / step⌉.toNat : Finset Nat) : Set Nat) := by
      ext k
      simp [sample_lt_iff start end_ step hstep k]
    rw [hset, Set.ncard_coe_Finset, Finset.card_range]
  · intro hlt
    apply Int.toNat_of_nonneg
    apply Int.ceil_nonneg
    exact div_nonneg (by linarith) hstep.le
  · intro fuel hfuel
    exact ⟨⟨_, loop_from_start start end_ step hstep fuel hfuel, rfl⟩, hval fuel hfuel⟩
  · intro h fuel hfuel
    have h0 := hle h
    have := hval fuel (by omega)
    rw [h0] at this
    simpa using this

/-- C7 refuted: on `[0, 1/2)` with step `1` the loop runs one body and leaves
`x = 1`, so `start + 1 * step = 1` exceeds `end_ = 1/2`: the trailing half
slice is counted at the full step width (the worker writes `4`), and `main`
with `N = 1`, `T = 2` prints `4 + 16/5`. -/
theorem loop_overshoots_end :
    loop (1 / 2) 1 2 { x := 0, partial_sum := 0, iterations := 0 } =
      some { x := 1, partial_sum := 4, iterations := 1 } ∧
    ¬ ((0 : ℚ) + ((1 : Nat) : ℚ) * 1 ≤ 1 / 2) ∧
    main 2 1 2 = some (Outcome.printed (36 / 5) 0) ∧
    ¬ (∀ (start end_ step : ℚ) (fuel : Nat) (s : LoopState), start < end_ → 0 < step →
        loop end_ step fuel { x := start, partial_sum := 0, iterations := 0 } = some s →
        start + (s.iterations : ℚ) * step ≤ end_) := by
  have hl : loop (1 / 2) 1 2 { x := 0, partial_sum := 0, iterations := 0 } =
      some { x := 1, partial_sum := 4, iterations := 1 } := by
    norm_num [loop]
  refine ⟨hl, by norm_num, ?_, ?_⟩
  · simp [main, worker_bounds, run_workers, calculate_partial_integral, loop, thread_start,
      thread_end, sum_results, List.range, List.range.loop]
    norm_num
  · intro hall
    have := hall 0 (1 / 2) 1 2 _ (by norm_num) (by norm_num) hl
    norm_num at this

/-- C7 as amended: for `start < end_` and a positive `step` the loop runs
`k ≥ 1` bodies; every sample point is below `end_` (the last one is
`start + (k - 1) * step`), and the slices end at `start + k * step`, which is
at least `end_` and less than `end_ + step`.  So the slices cover
`[start, end_)` and a trailing fractional slice is counted at the full step
width. -/
theorem loop_slices_cover (start end_ step : ℚ) (hlt : start < end_) (hstep : 0 < step) :
    ∃ k : Nat, 0 < k ∧
      (∀ fuel : Nat, k < fuel →
        ∃ s : LoopState,
          loop end_ step fuel { x := start, partial_sum := 0, iterations := 0 } = some s ∧
          s.iterations = k ∧ s.x = start + (k : ℚ) * step) ∧
      (∀ j : Nat, j < k → start + (j : ℚ) * step < end_) ∧
      start + ((k : ℚ) - 1) * step < end_ ∧
      end_ ≤ start + (k : ℚ) * step ∧
      start + (k : ℚ) * step < end_ + step := by
  have hiff := sample_lt_iff start end_ step hstep
  have hpos : 0 < ⌈(end_ - start) / step⌉.toNat := by
    have := (hiff 0).1 (by simpa using hlt)
    exact this
  have hlast : start + ((⌈(end_ - start) / step⌉.toNat : ℚ) - 1) * step < end_ := by
    have := (hiff (⌈(end_ - start) / step⌉.toNat - 1)).2 (by omega)
    rwa [Nat.cast_sub hpos, Nat.cast_one] at this
  have hend : end_ ≤ start + (⌈(end_ - start) / step⌉.toNat : ℚ) * step :=
    not_lt.1 fun h => lt_irrefl _ ((hiff _).1 h)
  refine ⟨⌈(end_ - start) / step⌉.toNat, hpos, ?_, fun j hj => (hiff j).2 hj, hlast, hend, ?_⟩
  · intro fuel hfuel
    exact ⟨_, loop_from_start start end_ step hstep fuel hfuel, rfl, rfl⟩
  · linarith

/-- Witness for the amended C7 at `start = 0`, `end_ = 1/2`, `step = 1`. -/
theorem loop_slices_cover_witness :
    ∃ k : Nat, 0 < k ∧
      (∀ fuel : Nat, k < fuel →
        ∃ s : LoopState,
          loop (1 / 2) 1 fuel { x := 0, partial_sum := 0, iterations := 0 } = some s ∧
          s.iterations = k ∧ s.x = 0 + (k : ℚ) * 1) ∧
      (∀ j : Nat, j < k → (0 : ℚ) + (j : ℚ) * 1 < 1 / 2) ∧
      (0 : ℚ) + ((k : ℚ) - 1) * 1 < 1 / 2 ∧
      (1 / 2 : ℚ) ≤ 0 + (k : ℚ) * 1 ∧
      (0 : ℚ) + (k : ℚ) * 1 < 1 / 2 + 1 :=
  loop_slices_cover 0 (1 / 2) 1 (by norm_num) (by norm_num)

/-- C2: for every worker count `T ≥ 1` the dispatch loop of `main` produces
`T` pairs of bounds, the pair of worker `i` being `(i / T, (i + 1) / T)`.
Worker 0 starts at 0, worker `T - 1` ends at 1, every interval has width
`1 / T`, the end of worker `i` is the start of worker `i + 1`, and the
half-open intervals are pairwise disjoint with union exactly `[0, 1)`. -/
theorem worker_bounds_partition (T : Int) (hT : 1 ≤ T) :
    (worker_bounds T).length = T.toNat ∧
    (∀ i : Nat, (i : Int) < T →
      (worker_bounds T)[i]? = some (thread_start T (i : Int), thread_end T (i : Int))) ∧
    (∀ i : Int, 0 ≤ i → i < T →
      thread_start T i = (i : ℚ) / (T : ℚ) ∧ thread_end T i = ((i : ℚ) + 1) / (T : ℚ)) ∧
    thread_start T 0 = 0 ∧
    thread_end T (T - 1) = 1 ∧
    (∀ i : Int, thread_end T i - thread_start T i = 1 / (T : ℚ)) ∧
    (∀ i : Int, thread_end T i = thread_start T (i + 1)) ∧
    (∀ i j : Int, 0 ≤ i → i < T → 0 ≤ j → j < T → i ≠ j → ∀ x : ℝ,
      ¬ (((thread_start T i : ℚ) : ℝ) ≤ x ∧ x < ((thread_end T i : ℚ) : ℝ) ∧
         ((thread_start T j : ℚ) : ℝ) ≤ x ∧ x < ((thread_end T j : ℚ) : ℝ))) ∧
    (∀ x : ℝ, (0 ≤ x ∧ x < 1) ↔
      ∃ i : Int, 0 ≤ i ∧ i < T ∧
        ((thread_start T i : ℚ) : ℝ) ≤ x ∧ x < ((thread_end T i : ℚ) : ℝ)) := by
  have hTq : (0 : ℚ) < (T : ℚ) := by exact_mod_cast (by omega : (0 : Int) < T)
  have hTr : (0 : ℝ) < (T : ℝ) := by exact_mod_cast (by omega : (0 : Int) < T)
  have hs : ∀ i : Int, ((thread_start T i : ℚ) : ℝ) = (i : ℝ) / (T : ℝ) := by
    intro i
    rw [(thread_bounds_eq T i).1]
    push_cast
    rfl
  have he : ∀ i : Int, ((thread_end T i : ℚ) : ℝ) = ((i : ℝ) + 1) / (T : ℝ) := by
    intro i
    rw [(thread_bounds_eq T i).2]
    push_cast
    rfl
  have hsep : ∀ i j : Int, i < j → ∀ x : ℝ,
      ¬ (x < ((thread_end T i : ℚ) : ℝ) ∧ ((thread_start T j : ℚ) : ℝ) ≤ x) := by
    intro i j hij x ⟨h1, h2⟩
    rw [he] at h1
    rw [hs] at h2
    have h3 : (j : ℝ) / (T : ℝ) < ((i : ℝ) + 1) / (T : ℝ) := lt_of_le_of_lt h2 h1
    rw [div_lt_div_iff_of_pos_right hTr] at h3
    have h4 : j < i + 1 := by exact_mod_cast h3
    omega
  refine ⟨by simp [worker_bounds], ?_, fun i _ _ => thread_bounds_eq T i, ?_, ?_, ?_, ?_, ?_, ?_⟩
  · intro i hi
    have hi2 : i < T.toNat := by omega
    simp [worker_bounds, List.getElem?_map, List.getElem?_range hi2]
  · simp [thread_start]
  · rw [(thread_bounds_eq T (T - 1)).2]
    push_cast
    field_simp
  · intro i
    rw [(thread_bounds_eq T i).1, (thread_bounds_eq T i).2]
    ring
  · intro i
    rw [(thread_bounds_eq T i).2, (thread_bounds_eq T (i + 1)).1]
    push_cast
    rfl
  · intro i j _ _ _ _ hij x ⟨h1, h2, h3, h4⟩
    rcases lt_or_gt_of_ne hij with h | h
    · exact hsep i j h x ⟨h2, h3⟩
    · exact hsep j i h x ⟨h4, h1⟩
  · intro x
    constructor
    · rintro ⟨h0, h1⟩
      refine ⟨⌊x * (T : ℝ)⌋, ?_, ?_, ?_, ?_⟩
      · exact Int.floor_nonneg.2 (mul_nonneg h0 hTr.le)
      · rw [Int.floor_lt]
        nlinarith
      · rw [hs, div_le_iff₀ hTr]
        exact Int.floor_le _
      · rw [he, lt_div_iff₀ hTr]
        exact Int.lt_floor_add_one _
    · rintro ⟨i, hi0, hiT, h1, h2⟩
      rw [hs] at h1
      rw [he] at h2
      have hi0r : (0 : ℝ) ≤ (i : ℝ) := by exact_mod_cast hi0
      have hiTr : (i : ℝ) + 1 ≤ (T : ℝ) := by exact_mod_cast (by omega : i + 1 ≤ T)
      constructor
      · exact le_trans (div_nonneg hi0r hTr.le) h1
      · exact lt_of_lt_of_le h2 ((div_le_one hTr).2 hiTr)

/-- Witness for C2 at `T = 3`. -/
theorem worker_bounds_partition_witness :
    (worker_bounds 3).length = (3 : Int).toNat ∧
    (∀ i : Nat, (i : Int) < 3 →
      (worker_bounds 3)[i]? = some (thread_start 3 (i : Int), thread_end 3 (i : Int))) ∧
    (∀ i : Int, 0 ≤ i → i < 3 →
      thread_start 3 i = (i : ℚ) / ((3 : Int) : ℚ) ∧
      thread_end 3 i = ((i : ℚ) + 1) / ((3 : Int) : ℚ)) ∧
    thread_start 3 0 = 0 ∧
    thread_end 3 (3 - 1) = 1 ∧
    (∀ i : Int, thread_end 3 i - thread_start 3 i = 1 / ((3 : Int) : ℚ)) ∧
    (∀ i : Int, thread_end 3 i = thread_start 3 (i + 1)) ∧
    (∀ i j : Int, 0 ≤ i → i < 3 → 0 ≤ j → j < 3 → i ≠ j → ∀ x : ℝ,
      ¬ (((thread_start 3 i : ℚ) : ℝ) ≤ x ∧ x < ((thread_end 3 i : ℚ) : ℝ) ∧
         ((thread_start 3 j : ℚ) : ℝ) ≤ x ∧ x < ((thread_end 3 j : ℚ) : ℝ))) ∧
    (∀ x : ℝ, (0 ≤ x ∧ x < 1) ↔
      ∃ i : Int, 0 ≤ i ∧ i < 3 ∧
        ((thread_start 3 i : ℚ) : ℝ) ≤ x ∧ x < ((thread_end 3 i : ℚ) : ℝ)) :=
  worker_bounds_partition 3 (by decide)

/-- Summing `T` consecutive blocks of `q` terms is summing the first `T * q`
terms. -/
theorem sum_blocks (g : Nat → ℚ) (q : Nat) (T : Nat) :
    ∑ i in Finset.range T, ∑ k in Finset.range q, g (i * q + k) =
      ∑ j in Finset.range (T * q), g j := by
  induction T with
  | zero => simp
  | succ T ih =>
    rw [Finset.sum_range_succ, ih, Nat.succ_mul, Finset.sum_range_add]

/-- When `N = T * q`, worker `i` of `T` runs exactly `q` loop bodies. -/
theorem worker_iterations_of_dvd (N T q : Nat) (hN : 0 < N) (hq : N = T * q) (i : Int) :
    ⌈(thread_end (T : Int) i - thread_start (T : Int) i) / (1 / (N : ℚ))⌉.toNat = q := by
  have hT : 0 < T := Nat.pos_of_ne_zero (by rintro rfl; simp at hq; omega)
  have hTq : (T : ℚ) ≠ 0 := by exact_mod_cast hT.ne'
  have hNq : (N : ℚ) ≠ 0 := by exact_mod_cast hN.ne'
  have : (thread_end (T : Int) i - thread_start (T : Int) i) / (1 / (N : ℚ)) = ((q : Int) : ℚ) := by
    rw [(thread_bounds_eq T i).1, (thread_bounds_eq T i).2, hq]
    push_cast
    field_simp
  rw [this, Int.ceil_intCast, Int.toNat_natCast]

/-- When `N = T * q`, sample `k` of worker `i` is the global grid point
`(i * q + k) / N`. -/
theorem worker_sample_of_dvd (N T q : Nat) (hN : 0 < N) (hq : N = T * q) (i k : Nat) :
    thread_start (T : Int) (i : Int) + (k : ℚ) * (1 / (N : ℚ)) =
      ((i * q + k : Nat) : ℚ) / (N : ℚ) := by
  have hT : (T : ℚ) ≠ 0 := by
    have : T ≠ 0 := by rintro rfl; simp at hq; omega
    exact_mod_cast this
  have hq0 : (q : ℚ) ≠ 0 := by
    have : q ≠ 0 := by rintro rfl; simp at hq; omega
    exact_mod_cast this
  rw [(thread_bounds_eq T i).1, hq]
  push_cast
  field_simp
  ring

/-- When `T` divides `N`, the run with `T` workers prints the left Riemann
sum over the global grid `k / N`, `k < N`. -/
theorem main_eq_of_dvd (N T : Nat) (hN : 0 < N) (hdvd : T ∣ N) (fuel : Nat) (hfuel : N < fuel) :
    main fuel N (T : Int) = some (Outcome.printed
      (∑ j in Finset.range N, 4 / (1 + ((j : ℚ) / (N : ℚ)) ^ 2) * (1 / (N : ℚ))) 0) := by
  obtain ⟨q, hq⟩ := hdvd
  have hT : 0 < T := Nat.pos_of_ne_zero (by rintro rfl; simp at hq; omega)
  have hTq : (T : ℚ) ≠ 0 := by exact_mod_cast hT.ne'
  have hNq : (N : ℚ) ≠ 0 := by exact_mod_cast hN.ne'
  rw [main_eq N hN T (Int.natCast_nonneg T) fuel hfuel, Int.toNat_natCast]
  congr 2
  have hinner : ∀ i ∈ Finset.range T,
      left_sum (thread_start (T : Int) (i : Int)) (thread_end (T : Int) (i : Int))
          (1 / (N : ℚ)) =
      ∑ k in Finset.range q,
        (fun j : Nat => 4 / (1 + ((j : ℚ) / (N : ℚ)) ^ 2) * (1 / (N : ℚ))) (i * q + k) := by
    intro i _
    rw [left_sum, worker_iterations_of_dvd N T q hN hq (i : Int)]
    apply Finset.sum_congr rfl
    intro k _
    rw [worker_sample_of_dvd N T q hN hq i k]
    simp only [integrand]
    congr 2
    ring
  rw [Finset.sum_congr rfl hinner, hq]
  exact sum_blocks (fun j : Nat => 4 / (1 + ((j : ℚ) / ((T * q : Nat) : ℚ)) ^ 2) *
    (1 / ((T * q : Nat) : ℚ))) q T

/-- Exact arithmetic: when `T ≥ 1` divides `N > 0`, the run with `T` workers
prints the same value as the run with one worker; worker `i` runs exactly
`N / T` loop bodies, at the global grid points `(i * (N / T) + k) / N`. -/
theorem exact_workers_eq_single (N T : Nat) (hN : 0 < N) (_hT : 1 ≤ T) (hdvd : T ∣ N)
    (fuel : Nat) (hfuel : N < fuel) :
    (∃ pi : ℚ, main fuel N (T : Int) = some (Outcome.printed pi 0) ∧
      main fuel N 1 = some (Outcome.printed pi 0)) ∧
    (∀ i : Nat, i < T →
      (∃ s : LoopState,
        loop (thread_end (T : Int) (i : Int)) (1 / (N : ℚ)) fuel
          { x := thread_start (T : Int) (i : Int), partial_sum := 0, iterations := 0 } = some s ∧
        s.iterations = N / T) ∧
      calculate_partial_integral fuel (thread_start (T : Int) (i : Int))
          (thread_end (T : Int) (i : Int)) (1 / (N : ℚ)) =
        some (∑ k in Finset.range (N / T),
          4 / (1 + (((i * (N / T) + k : Nat) : ℚ) / (N : ℚ)) ^ 2) * (1 / (N : ℚ)))) := by
  have hNq : (0 : ℚ) < N := by exact_mod_cast hN
  have hstep : (0 : ℚ) < 1 / (N : ℚ) := by positivity
  refine ⟨⟨_, main_eq_of_dvd N T hN hdvd fuel hfuel, ?_⟩, ?_⟩
  · have := main_eq_of_dvd N 1 hN (one_dvd N) fuel hfuel
    simpa using this
  · intro i _
    have hq : N = T * (N / T) := (Nat.mul_div_cancel' hdvd).symm
    have hm := worker_iterations_of_dvd N T (N / T) hN hq (i : Int)
    have hf : ⌈(thread_end (T : Int) (i : Int) - thread_start (T : Int) (i : Int)) /
        (1 / (N : ℚ))⌉.toNat < fuel := by
      rw [hm]
      exact lt_of_le_of_lt (Nat.div_le_self N T) hfuel
    have hl := loop_from_start _ _ _ hstep fuel hf
    have hc := calculate_partial_integral_eq _ _ _ hstep fuel hf
    rw [left_sum] at hc
    rw [hm] at hl hc
    refine ⟨⟨_, hl, rfl⟩, ?_⟩
    rw [hc]
    congr 1
    apply Finset.sum_congr rfl
    intro k _
    rw [worker_sample_of_dvd N T (N / T) hN hq i k]
    simp only [integrand]
    congr 2
    ring

/-- The exact integral of `4 / (1 + x^2)` over `[a, b]`. -/
theorem integral_integrand (a b : ℝ) :
    ∫ x in a..b, 4 / (1 + x ^ 2) = 4 * Real.arctan b - 4 * Real.arctan a := by
  have h : (fun x : ℝ => 4 / (1 + x ^ 2)) = fun x : ℝ => 4 * (1 / (1 + x ^ 2)) := by
    funext x
    ring
  rw [h, intervalIntegral.integral_const_mul, integral_one_div_one_add_sq]
  ring

/-- Exact arithmetic: for every fixed worker count `T ≥ 1` there is a constant
`C` (here `4 * T`) such that for every `N > 0` the run of `main` finishes
with the value `result N T` and `|result N T - π| ≤ C / N`; hence
`result N T` tends to `π` as `N` tends to infinity. -/
theorem exact_result_error_le (T : Nat) (hT : 1 ≤ T) :
    (∃ C : ℝ, ∀ N : Nat, 0 < N →
      (∀ fuel : Nat, N < fuel →
        main fuel N (T : Int) = some (Outcome.printed (result N (T : Int)) 0)) ∧
      |((result N (T : Int) : ℚ) : ℝ) - Real.pi| ≤ C / (N : ℝ)) ∧
    Filter.Tendsto (fun N : Nat => ((result N (T : Int) : ℚ) : ℝ)) Filter.atTop
      (nhds Real.pi) := by
  have hbound : ∀ N : Nat, 0 < N →
      |((result N (T : Int) : ℚ) : ℝ) - Real.pi| ≤ 4 * (T : ℝ) / (N : ℝ) := by
    intro N hN
    have hb := result_bounds N T hN hT
    rw [abs_le]
    constructor <;> linarith [hb.1, hb.2]
  refine ⟨⟨4 * (T : ℝ), fun N hN =>
    ⟨fun fuel hfuel => main_eq_result N hN T (Int.natCast_nonneg T) fuel hfuel, hbound N hN⟩⟩, ?_⟩
  rw [tendsto_iff_norm_sub_tendsto_zero]
  refine squeeze_zero' (Filter.Eventually.of_forall fun N => norm_nonneg _) ?_
    (tendsto_const_div_atTop_nhds_zero_nat (4 * (T : ℝ)))
  filter_upwards [Filter.eventually_gt_atTop 0] with N hN
  simpa [Real.norm_eq_abs] using hbound N hN

/-- C5: for `N = 100000000` and `T = 4` the workers get the bounds
`[0, 1/4)`, `[1/4, 1/2)`, `[1/2, 3/4)`, `[3/4, 1)`, the run of `main`
finishes with the sum of the four partial results, and that value differs
from `3.14159265` by less than `1e-6`. -/
theorem result_hundred_million_four_workers (fuel : Nat) (hfuel : 100000000 < fuel) :
    worker_bounds 4 = [(0, 1 / 4), (1 / 4, 1 / 2), (1 / 2, 3 / 4), (3 / 4, 1)] ∧
    main fuel 100000000 4 = some (Outcome.printed (result 100000000 4) 0) ∧
    result 100000000 4 =
      left_sum 0 (1 / 4) (1 / ((100000000 : Nat) : ℚ)) +
      left_sum (1 / 4) (1 / 2) (1 / ((100000000 : Nat) : ℚ)) +
      left_sum (1 / 2) (3 / 4) (1 / ((100000000 : Nat) : ℚ)) +
      left_sum (3 / 4) 1 (1 / ((100000000 : Nat) : ℚ)) ∧
    |((result 100000000 4 : ℚ) : ℝ) - 3.14159265| < 0.000001 := by
  have hts : ∀ i : Int, thread_start 4 i = (i : ℚ) / 4 := fun i => by
    simpa using (thread_bounds_eq 4 i).1
  have hte : ∀ i : Int, thread_end 4 i = ((i : ℚ) + 1) / 4 := fun i => by
    simpa using (thread_bounds_eq 4 i).2
  refine ⟨?_, main_eq_result 100000000 (by norm_num) 4 (by norm_num) fuel hfuel, ?_, ?_⟩
  · simp only [worker_bounds, hts, hte]
    norm_num [List.range, List.range.loop]
  · rw [result_eq 100000000 (by norm_num) 4 (by norm_num)]
    have h4 : (4 : Int).toNat = 4 := rfl
    simp only [h4, Finset.sum_range_succ, Finset.sum_range_zero, hts, hte]
    norm_num
  · have hb := result_bounds 100000000 4 (by norm_num) (by norm_num)
    have h1 := Real.pi_gt_d6
    have h2 := Real.pi_lt_d6
    have hcast : ((4 : Nat) : Int) = 4 := rfl
    rw [hcast] at hb
    rw [abs_lt]
    constructor
    · norm_num at hb ⊢
      linarith [hb.1]
    · norm_num at hb ⊢
      linarith [hb.2]

/-- Witness for C5 with fuel `100000001`. -/
theorem result_hundred_million_four_workers_witness :
    worker_bounds 4 = [(0, 1 / 4), (1 / 4, 1 / 2), (1 / 2, 3 / 4), (3 / 4, 1)] ∧
    main 100000001 100000000 4 = some (Outcome.printed (result 100000000 4) 0) ∧
    result 100000000 4 =
      left_sum 0 (1 / 4) (1 / ((100000000 : Nat) : ℚ)) +
      left_sum (1 / 4) (1 / 2) (1 / ((100000000 : Nat) : ℚ)) +
      left_sum (1 / 2) (3 / 4) (1 / ((100000000 : Nat) : ℚ)) +
      left_sum (3 / 4) 1 (1 / ((100000000 : Nat) : ℚ)) ∧
    |((result 100000000 4 : ℚ) : ℝ) - 3.14159265| < 0.000001 :=
  result_hundred_million_four_workers 100000001 (by norm_num)

/-- Exact arithmetic: for every `N > 0` and `T ≥ 1` the run of `main` finishes
with a value strictly greater than `π`; every worker's partial result is at
least the exact integral of `4 / (1 + x^2)` over its interval
`[thread_start, thread_end]`. -/
theorem exact_result_gt_pi (N T : Nat) (hN : 0 < N) (hT : 1 ≤ T) (fuel : Nat) (hfuel : N < fuel) :
    main fuel N (T : Int) = some (Outcome.printed (result N (T : Int)) 0) ∧
    Real.pi < ((result N (T : Int) : ℚ) : ℝ) ∧
    (∀ i : Nat, i < T →
      ∃ w : ℚ,
        calculate_partial_integral fuel (thread_start (T : Int) (i : Int))
          (thread_end (T : Int) (i : Int)) (1 / (N : ℚ)) = some w ∧
        (∫ x in ((thread_start (T : Int) (i : Int) : ℚ) : ℝ)..
            ((thread_end (T : Int) (i : Int) : ℚ) : ℝ), 4 / (1 + x ^ 2)) ≤ (w : ℝ)) := by
  have hstep : (0 : ℚ) < 1 / (N : ℚ) := by
    have : (0 : ℚ) < N := by exact_mod_cast hN
    positivity
  refine ⟨main_eq_result N hN T (Int.natCast_nonneg T) fuel hfuel,
    (result_bounds N T hN hT).1, ?_⟩
  intro i _
  refine ⟨_, calculate_partial_integral_eq _ _ _ hstep fuel
    (lt_of_le_of_lt (worker_iterations_le N hN T i) hfuel), ?_⟩
  rw [integral_integrand]
  exact (left_sum_bounds _ _ _ (thread_bounds_order T hT i).1
    (thread_bounds_order T hT i).2 hstep).1.le


/-! ## Binary64 arithmetic -/

/-- The halving loop finds the binary exponent of a positive natural number. -/
theorem log2_floor_spec : ∀ fuel n : Nat, n ≤ fuel → 0 < n →
    2 ^ log2_floor fuel n ≤ n ∧ n < 2 ^ (log2_floor fuel n + 1) := by
  intro fuel
  induction fuel with
  | zero => intro n h1 h2; omega
  | succ fuel ih =>
    intro n hle hpos
    unfold log2_floor
    split_ifs with h
    · have : n = 1 := by omega
      subst this
      simp
    · have := ih (n / 2) (by omega) (by omega)
      have h1 := pow_succ 2 (log2_floor fuel (n / 2))
      have h2 := pow_succ 2 (log2_floor fuel (n / 2) + 1)
      omega

/-- The binary exponent brackets a non-zero rational between consecutive
powers of two. -/
theorem ilog2_spec (q : ℚ) (hq : q ≠ 0) :
    (2 : ℚ) ^ ilog2 q ≤ |q| ∧ |q| < (2 : ℚ) ^ (ilog2 q + 1) := by
  have hnum : 0 < q.num.natAbs := Int.natAbs_pos.2 (Rat.num_ne_zero.2 hq)
  have hden : 0 < q.den := q.den_pos
  obtain ⟨ha1, ha2⟩ := log2_floor_spec _ _ (le_refl q.num.natAbs) hnum
  obtain ⟨hb1, hb2⟩ := log2_floor_spec _ _ (le_refl q.den) hden
  set a := log2_floor q.num.natAbs q.num.natAbs
  set b := log2_floor q.den q.den
  have habs : |q| = (q.num.natAbs : ℚ) / (q.den : ℚ) := by
    conv_lhs => rw [← Rat.num_div_den q]
    rw [abs_div, Nat.abs_cast, Nat.cast_natAbs, Int.cast_abs]
  have hdq : (0 : ℚ) < (q.den : ℚ) := by exact_mod_cast hden
  have ha1q : (2 : ℚ) ^ a ≤ (q.num.natAbs : ℚ) := by exact_mod_cast ha1
  have ha2q : (q.num.natAbs : ℚ) < (2 : ℚ) ^ (a + 1) := by exact_mod_cast ha2
  have hb1q : (2 : ℚ) ^ b ≤ (q.den : ℚ) := by exact_mod_cast hb1
  have hb2q : (q.den : ℚ) < (2 : ℚ) ^ (b + 1) := by exact_mod_cast hb2
  have h2 : (0 : ℚ) < 2 := by norm_num
  have hup : |q| < (2 : ℚ) ^ ((a : Int) - (b : Int) + 1) := by
    rw [habs, div_lt_iff₀ hdq]
    have : (2 : ℚ) ^ ((a : Int) - (b : Int) + 1) * (2 : ℚ) ^ b = (2 : ℚ) ^ (a + 1) := by
      rw [← zpow_natCast (2 : ℚ) b, ← zpow_add₀ h2.ne', ← zpow_natCast (2 : ℚ) (a + 1)]
      congr 1
      push_cast
      ring
    calc (q.num.natAbs : ℚ) < (2 : ℚ) ^ (a + 1) := ha2q
      _ = (2 : ℚ) ^ ((a : Int) - (b : Int) + 1) * (2 : ℚ) ^ b := this.symm
      _ ≤ (2 : ℚ) ^ ((a : Int) - (b : Int) + 1) * (q.den : ℚ) :=
        mul_le_mul_of_nonneg_left hb1q (zpow_pos h2 _).le
  have hlow : (2 : ℚ) ^ ((a : Int) - (b : Int) - 1) ≤ |q| := by
    rw [habs, le_div_iff₀ hdq]
    have : (2 : ℚ) ^ ((a : Int) - (b : Int) - 1) * (2 : ℚ) ^ (b + 1) = (2 : ℚ) ^ a := by
      rw [← zpow_natCast (2 : ℚ) (b + 1), ← zpow_add₀ h2.ne', ← zpow_natCast (2 : ℚ) a]
      congr 1
      push_cast
      ring
    calc (2 : ℚ) ^ ((a : Int) - (b : Int) - 1) * (q.den : ℚ)
        ≤ (2 : ℚ) ^ ((a : Int) - (b : Int) - 1) * (2 : ℚ) ^ (b + 1) :=
          mul_le_mul_of_nonneg_left hb2q.le (zpow_pos h2 _).le
      _ = (2 : ℚ) ^ a := this
      _ ≤ (q.num.natAbs : ℚ) := ha1q
  unfold ilog2
  split_ifs with h
  · exact ⟨h, hup⟩
  · refine ⟨hlow, ?_⟩
    have : (a : Int) - (b : Int) - 1 + 1 = (a : Int) - (b : Int) := by ring
    rw [this]
    exact not_le.1 h

/-- Rounding to an integer moves by at most one half. -/
theorem round_half_even_spec (s : ℚ) : |((round_half_even s : Int) : ℚ) - s| ≤ 1 / 2 := by
  have h1 := Int.floor_le s
  have h2 := Int.lt_floor_add_one s
  unfold round_half_even
  rw [abs_le]
  split_ifs <;> push_cast <;> constructor <;> linarith


/-- Rounding to binary64: the result is an integer multiple `n` of the
quantum with `|n| ≤ 2 ^ 53`, at most half a quantum away from the exact
value. -/
theorem round_double_spec (q : ℚ) (hq : q ≠ 0) :
    round_double q =
      (round_half_even (q / 2 ^ (max (ilog2 q) (-1022) - 52)) : ℚ) *
        2 ^ (max (ilog2 q) (-1022) - 52) ∧
    |round_double q - q| ≤ 2 ^ (max (ilog2 q) (-1022) - 52) / 2 ∧
    |round_half_even (q / 2 ^ (max (ilog2 q) (-1022) - 52))| ≤ 2 ^ 53 := by
  have h2 : (0 : ℚ) < 2 := by norm_num
  have hpos : (0 : ℚ) < 2 ^ (max (ilog2 q) (-1022) - 52) := zpow_pos h2 _
  have hdef : round_double q =
      (round_half_even (q / 2 ^ (max (ilog2 q) (-1022) - 52)) : ℚ) *
        2 ^ (max (ilog2 q) (-1022) - 52) := by
    simp only [round_double, if_neg hq]
  have hr := round_half_even_spec (q / 2 ^ (max (ilog2 q) (-1022) - 52))
  refine ⟨hdef, ?_, ?_⟩
  · rw [hdef]
    have : (round_half_even (q / 2 ^ (max (ilog2 q) (-1022) - 52)) : ℚ) *
        2 ^ (max (ilog2 q) (-1022) - 52) - q =
        ((round_half_even (q / 2 ^ (max (ilog2 q) (-1022) - 52)) : ℚ) -
          q / 2 ^ (max (ilog2 q) (-1022) - 52)) * 2 ^ (max (ilog2 q) (-1022) - 52) := by
      field_simp
    rw [this, abs_mul, abs_of_pos hpos]
    calc _ ≤ 1 / 2 * (2 : ℚ) ^ (max (ilog2 q) (-1022) - 52) :=
          mul_le_mul_of_nonneg_right hr hpos.le
      _ = _ := by ring
  · have hs : |q / 2 ^ (max (ilog2 q) (-1022) - 52)| < 2 ^ 53 := by
      rw [abs_div, abs_of_pos hpos, div_lt_iff₀ hpos]
      have hle : (2 : ℚ) ^ (ilog2 q + 1) ≤ 2 ^ (53 : Int) * 2 ^ (max (ilog2 q) (-1022) - 52) := by
        rw [← zpow_add₀ h2.ne']
        apply zpow_le_zpow_right₀ (by norm_num)
        have := le_max_left (ilog2 q) (-1022)
        omega
      have h53 : (2 : ℚ) ^ (53 : Int) = 2 ^ 53 := by norm_num
      rw [h53] at hle
      exact lt_of_lt_of_le (ilog2_spec q hq).2 hle
    have hn : |((round_half_even (q / 2 ^ (max (ilog2 q) (-1022) - 52)) : Int) : ℚ)| <
        2 ^ 53 + 1 := by
      have h3 := abs_sub_abs_le_abs_sub
        ((round_half_even (q / 2 ^ (max (ilog2 q) (-1022) - 52)) : Int) : ℚ)
        (q / 2 ^ (max (ilog2 q) (-1022) - 52))
      linarith
    have hn2 : |round_half_even (q / 2 ^ (max (ilog2 q) (-1022) - 52))| < 2 ^ 53 + 1 := by
      have : ((|round_half_even (q / 2 ^ (max (ilog2 q) (-1022) - 52))| : Int) : ℚ) <
          ((2 ^ 53 + 1 : Int) : ℚ) := by
        push_cast
        norm_num at hn ⊢
        exact hn
      exact_mod_cast this
    omega

/-- A loop whose variable is not moved by `x += step` never ends. -/
theorem loop_double_stall (end_ step x0 : ℚ) (hlt : x0 < end_) (hfix : fadd x0 step = x0) :
    ∀ (fuel : Nat) (s : LoopState), s.x = x0 → loop_double end_ step fuel s = none := by
  intro fuel
  induction fuel with
  | zero => intro s _; rfl
  | succ fuel ih =>
    intro s hs
    have hx : s.x < end_ := by rw [hs]; exact hlt
    rw [loop_double, if_pos hx]
    apply ih
    show fadd s.x step = x0
    rw [hs, hfix]

/-- A finished binary64 loop finishes with the same state under more fuel. -/
theorem loop_double_fuel_mono (end_ step : ℚ) :
    ∀ (fuel : Nat) (s r : LoopState), loop_double end_ step fuel s = some r →
      ∀ extra : Nat, loop_double end_ step (fuel + extra) s = some r := by
  intro fuel
  induction fuel with
  | zero => intro s r h; simp [loop_double] at h
  | succ fuel ih =>
    intro s r h extra
    rw [Nat.add_right_comm]
    rw [loop_double] at h ⊢
    split_ifs at h ⊢ with hx
    · exact ih _ _ h extra
    · exact h

/-- When one worker never finishes, the join never completes. -/
theorem run_workers_double_none (fuel : Nat) (step : ℚ) :
    ∀ bs : List (ℚ × ℚ),
      (∃ b ∈ bs, calculate_partial_integral_double fuel b.1 b.2 step = none) →
      run_workers_double fuel step bs = none := by
  intro bs
  induction bs with
  | nil => rintro ⟨b, hb, _⟩; simp at hb
  | cons c cs ih =>
    rintro ⟨b, hb, hnone⟩
    rcases List.mem_cons.1 hb with rfl | hmem
    · simp [run_workers_double, hnone]
    · have := ih ⟨b, hmem, hnone⟩
      rw [run_workers_double, this]
      cases calculate_partial_integral_double fuel c.1 c.2 step <;> rfl

/-- In binary64 a worker started at `x0` whose variable is not moved by
`x += step` writes nothing, whatever the fuel. -/
theorem calculate_partial_integral_double_stall (end_ step x0 : ℚ) (hlt : x0 < end_)
    (hfix : fadd x0 step = x0) (fuel : Nat) :
    calculate_partial_integral_double fuel x0 end_ step = none := by
  rw [calculate_partial_integral_double, loop_double_stall end_ step x0 hlt hfix fuel _ rfl]
  rfl

/-! ## The binary64 program against the exact-arithmetic properties -/

/-- C1 fails on the binary64 program at `N = 10`, `T = 1`: the step is the
double `0.1`, ten additions leave `x = 0.9999999999999999 < 1`, so the worker
runs 11 bodies, not 10, and `main` prints `3.4399259889071589`, which exceeds
the 10-term left Riemann sum `∑ k < 10, 4 / (1 + (k/10)^2) * (1/10)` by more
than `0.19` (one whole extra slice). -/
theorem main_double_ten_intervals_one_worker :
    main_double 12 10 1 =
      some (Outcome.printed (7746024700912183 / 2251799813685248) 0) ∧
    (loop_double 1 (fdiv 1 (round_double ((10 : Nat) : ℚ))) 12
        { x := 0, partial_sum := 0, iterations := 0 }).map LoopState.iterations = some 11 ∧
    (19 : ℚ) / 100 < 7746024700912183 / 2251799813685248 -
      ∑ k in Finset.range 10,
        4 / (1 + ((k : ℚ) / ((10 : Nat) : ℚ)) ^ 2) * (1 / ((10 : Nat) : ℚ)) := by
  refine ⟨by decide!, by decide!, ?_⟩
  norm_num [Finset.sum_range_succ]

/-- C8 fails on the binary64 loop.  At `start = 0`, `end = 1`, `step = 0.1`
(the double `3602879701896397 / 2^55`) the loop runs 11 bodies and writes
`3.4399259889071589`, while the ceiling of `(end - start) / step` is 10; at
`start = 1`, `end = 1 + 2^-50`, `step = 2^-54` the addition `x += step` leaves
`x = 1`, so the loop never terminates. -/
theorem loop_double_miscounts_and_stalls :
    round_double (1 / 10) = 3602879701896397 / 36028797018963968 ∧
    loop_double 1 (3602879701896397 / 36028797018963968) 12
        { x := 0, partial_sum := 0, iterations := 0 } =
      some { x := 4953959590107545 / 4503599627370496
             partial_sum := 7746024700912183 / 2251799813685248
             iterations := 11 } ∧
    ⌈((1 : ℚ) - 0) / (3602879701896397 / 36028797018963968)⌉.toNat = 10 ∧
    fadd 1 (1 / 2 ^ 54) = 1 ∧
    (∀ fuel : Nat,
      loop_double (1 + 1 / 2 ^ 50) (1 / 2 ^ 54) fuel
        { x := 1, partial_sum := 0, iterations := 0 } = none) := by
  refine ⟨by decide!, by decide!, by decide!, by decide!, ?_⟩
  intro fuel
  exact loop_double_stall _ _ 1 (by norm_num) (by decide!) fuel _ rfl

/-- C9 fails on the binary64 program at `N = 10`, `T = 5` (5 divides 10): the
five workers run 2, 2, 3, 2, 2 bodies (worker 2 starts at
`3 * (1.0 / 5) = 0.6000000000000001` and takes 3 samples, not `N / T = 2`),
`main` prints `3.5340436359659826`, and with one worker it prints
`3.4399259889071589`. -/
theorem main_double_five_workers_ne_one_worker :
    main_double 12 10 5 = some (Outcome.printed (994744850127967 / 281474976710656) 0) ∧
    main_double 12 10 1 = some (Outcome.printed (7746024700912183 / 2251799813685248) 0) ∧
    (994744850127967 / 281474976710656 : ℚ) ≠ 7746024700912183 / 2251799813685248 ∧
    (worker_bounds_double 5).map (fun b =>
      (loop_double b.2 (fdiv 1 (round_double ((10 : Nat) : ℚ))) 12
        { x := b.1, partial_sum := 0, iterations := 0 }).map LoopState.iterations) =
      [some 2, some 2, some 3, some 2, some 2] := by
  refine ⟨by decide!, by decide!, by norm_num, by decide!⟩

/-- C4 fails on the binary64 program at `N = 2^60`, `T = 2`: the step is
`2^-60`, worker 1 starts at `x = 0.5`, and `0.5 + 2^-60` rounds to `0.5`, so
its loop never ends and `main` produces no value for any fuel; no bound
`|result - π| ≤ C / N` holds there. -/
theorem main_double_two_workers_never_finishes (fuel : Nat) :
    fdiv 1 (round_double ((1152921504606846976 : Nat) : ℚ)) = 1 / 2 ^ 60 ∧
    worker_bounds_double 2 = [(0, 1 / 2), (1 / 2, 1)] ∧
    fadd (1 / 2) (1 / 2 ^ 60) = 1 / 2 ∧
    main_double fuel 1152921504606846976 2 = none := by
  have hstep : fdiv 1 (round_double ((1152921504606846976 : Nat) : ℚ)) = 1 / 2 ^ 60 := by
    decide!
  have hb : worker_bounds_double 2 = [(0, 1 / 2), (1 / 2, 1)] := by decide!
  have hfix : fadd (1 / 2) (1 / 2 ^ 60) = 1 / 2 := by decide!
  have hw := calculate_partial_integral_double_stall 1 (1 / 2 ^ 60) (1 / 2) (by norm_num)
    hfix fuel
  have hrun := run_workers_double_none fuel (1 / 2 ^ 60) [(0, 1 / 2), (1 / 2, 1)]
    ⟨(1 / 2, 1), by simp, hw⟩
  have hT : ¬ ((2 : Int) < 0) := by decide
  refine ⟨hstep, hb, hfix, ?_⟩
  simp only [main_double, if_neg hT, hstep, hb, hrun]

/-- C10 fails on the binary64 program at `N = 2^60`, `T = 4`: worker 1 starts
at `x = 0.25`, and `0.25 + 2^-60` rounds to `0.25`, so it writes no partial
result and `main` produces no value for any fuel, in particular none above
`π`. -/
theorem main_double_four_workers_never_finishes (fuel : Nat) :
    worker_bounds_double 4 = [(0, 1 / 4), (1 / 4, 1 / 2), (1 / 2, 3 / 4), (3 / 4, 1)] ∧
    fadd (1 / 4) (1 / 2 ^ 60) = 1 / 4 ∧
    calculate_partial_integral_double fuel (1 / 4) (1 / 2) (1 / 2 ^ 60) = none ∧
    main_double fuel 1152921504606846976 4 = none := by
  have hstep : fdiv 1 (round_double ((1152921504606846976 : Nat) : ℚ)) = 1 / 2 ^ 60 := by
    decide!
  have hb : worker_bounds_double 4 =
      [(0, 1 / 4), (1 / 4, 1 / 2), (1 / 2, 3 / 4), (3 / 4, 1)] := by decide!
  have hfix : fadd (1 / 4) (1 / 2 ^ 60) = 1 / 4 := by decide!
  have hw := calculate_partial_integral_double_stall (1 / 2) (1 / 2 ^ 60) (1 / 4) (by norm_num)
    hfix fuel
  have hrun := run_workers_double_none fuel (1 / 2 ^ 60)
    [(0, 1 / 4), (1 / 4, 1 / 2), (1 / 2, 3 / 4), (3 / 4, 1)] ⟨(1 / 4, 1 / 2), by simp, hw⟩
  have hT : ¬ ((4 : Int) < 0) := by decide
  refine ⟨hb, hfix, hw, ?_⟩
  simp only [main_double, if_neg hT, hstep, hb, hrun]

end LiczbaPi
